import Mathlib

/-!
Verification of the connection-inference engine (`findConnections`) of the
neume-annotation client.  The TypeScript source works on annotation records
(`EventItem & MarkerBaseState`): objects with a classification `type`, a label
`value`, and bounding-box fields `x`, `y`, `width`, `height`.  Records whose
`x` or `y` is not a number are skipped (`typeof bounds.x !== 'number'`), which
we model by giving `x` and `y` type `Option ℚ`.  Coordinates are modelled by
rationals.
-/

structure EventItem where
  type : String
  value : String
  x : Option ℚ
  y : Option ℚ
  width : ℚ
  height : ℚ
deriving DecidableEq, Repr

/-- A record together with the index it had in the input sequence
(the source's `AnnotationWithBounds & { index: number }`). -/
structure AnnotBounds where
  index : ℕ
  x : ℚ
  y : ℚ
  width : ℚ
  height : ℚ
deriving DecidableEq, Repr

structure Connection where
  neumeId : ℕ
  syllableId : ℕ
  neumeX : ℚ
  neumeY : ℚ
  syllableX : ℚ
  syllableY : ℚ
deriving DecidableEq, Repr

/-- The numeric-coordinates guard of the source's `forEach` body: a record
whose `x` or `y` is missing yields no candidate; otherwise the record is
paired with its index. -/
def toBounds (i : ℕ) (e : EventItem) : Option AnnotBounds :=
  match e.x, e.y with
  | some xv, some yv => some ⟨i, xv, yv, e.width, e.height⟩
  | _, _ => none

/-- One pass over the events from index `i`, keeping the records selected by
`keep` that have numeric coordinates (the source's `events.forEach((event,
index) => ...)` body, for one of the two branches). -/
def pickFrom (keep : EventItem → Bool) : ℕ → List EventItem → List AnnotBounds
  | _, [] => []
  | i, e :: rest =>
    (if keep e then (toBounds i e).toList else []) ++ pickFrom keep (i + 1) rest

def neumesOf (events : List EventItem) : List AnnotBounds :=
  pickFrom (fun e => e.type == "neume-type") 0 events

def syllablesOf (events : List EventItem) : List AnnotBounds :=
  pickFrom (fun e => !(e.type == "neume-type")) 0 events

def neumeBottomY (n : AnnotBounds) : ℚ := n.y + n.height

def neumeCenterX (n : AnnotBounds) : ℚ := n.x + n.width / 2

def syllableCenterX (s : AnnotBounds) : ℚ := s.x + s.width / 2

/-- Source test `const isBelow = syllableTop >= neume.y`. -/
def isBelow (n s : AnnotBounds) : Prop := s.y ≥ n.y

/-- Source test `neumeCenterX >= syllableLeft - syllable.width && neumeCenterX
<= syllableRight + syllable.width`. -/
def isHorizontallyValid (n s : AnnotBounds) : Prop :=
  neumeCenterX n ≥ s.x - s.width ∧ neumeCenterX n ≤ (s.x + s.width) + s.width

/-- Source line `const verticalDist = syllableTop - neumeBottomY`. -/
def verticalDist (n s : AnnotBounds) : ℚ := s.y - neumeBottomY n

/-- The absolute value `Math.abs`. -/
def mathAbs (q : ℚ) : ℚ := if q < 0 then -q else q

/-- Source line `const horizontalDist = Math.abs(neumeCenterX - syllableCenterX)`. -/
def horizontalDist (n s : AnnotBounds) : ℚ :=
  mathAbs (neumeCenterX n - syllableCenterX s)

/-- Source test `verticalDist >= 0 && verticalDist < maxVerticalGap` with
`maxVerticalGap = neume.height * 5`. -/
def gapOk (n s : AnnotBounds) : Prop :=
  verticalDist n s ≥ 0 ∧ verticalDist n s < n.height * 5

/-- A syllable passes all three tests of the inner loop for a given neume. -/
def eligible (n s : AnnotBounds) : Prop :=
  isBelow n s ∧ isHorizontallyValid n s ∧ gapOk n s

/-- Source line `const distance = verticalDist * 2 + horizontalDist`. -/
def distance (n s : AnnotBounds) : ℚ :=
  verticalDist n s * 2 + horizontalDist n s

instance (n s : AnnotBounds) : Decidable (isBelow n s) :=
  inferInstanceAs (Decidable (n.y ≤ s.y))

instance (n s : AnnotBounds) : Decidable (isHorizontallyValid n s) :=
  inferInstanceAs (Decidable (_ ∧ _))

instance (n s : AnnotBounds) : Decidable (gapOk n s) :=
  inferInstanceAs (Decidable (_ ∧ _))

instance (n s : AnnotBounds) : Decidable (eligible n s) :=
  inferInstanceAs (Decidable (_ ∧ _ ∧ _))

/-- The inner loop of `findConnections`: `best` holds `bestSyllable` (with
`bestDistance = distance n b` when `best = some b`, `Infinity` when `none`);
an eligible syllable replaces the current best exactly when its distance is
strictly smaller. -/
def pickBestAux (n : AnnotBounds) : Option AnnotBounds → List AnnotBounds → Option AnnotBounds
  | best, [] => best
  | none, s :: rest =>
    if eligible n s then pickBestAux n (some s) rest
    else pickBestAux n none rest
  | some b, s :: rest =>
    if eligible n s ∧ distance n s < distance n b then pickBestAux n (some s) rest
    else pickBestAux n (some b) rest

def pickBest (n : AnnotBounds) (syllables : List AnnotBounds) : Option AnnotBounds :=
  pickBestAux n none syllables

/-- The connection record pushed by the source when `bestSyllable` is found. -/
def mkConnection (n s : AnnotBounds) : Connection :=
  { neumeId := n.index
    syllableId := s.index
    neumeX := n.x + n.width / 2
    neumeY := n.y + n.height
    syllableX := s.x + s.width / 2
    syllableY := s.y }

/-- The function `findConnections` of the source: partition the events, and for each neume
in order emit a connection to the best eligible syllable, if any. -/
def findConnections (events : List EventItem) : List Connection :=
  (neumesOf events).filterMap fun n =>
    (pickBest n (syllablesOf events)).map fun s => mkConnection n s

/-- Erases the only field inference is expected not to read. -/
def stripValue (e : EventItem) : EventItem :=
  { e with value := "" }

/-- Scenario A of the spec: one neume box at (0,0) of size 10×10, one
syllable box at (0,15) of size 10×5 directly below. -/
def evScenarioA : List EventItem :=
  [⟨"neume-type", "pes", some 0, some 0, 10, 10⟩,
   ⟨"syllable", "al", some 0, some 15, 10, 5⟩]

/-- A record without a numeric `x`, followed by a well-formed neume and
syllable pair. -/
def evMalformed : List EventItem :=
  [⟨"neume-type", "bad", none, some 0, 10, 10⟩,
   ⟨"neume-type", "n", some 20, some 0, 10, 10⟩,
   ⟨"syllable", "le", some 20, some 12, 10, 5⟩]

/-- A zero-height neume with a syllable at its own vertical position,
followed by a well-formed neume and syllable pair. -/
def evZeroHeight : List EventItem :=
  [⟨"neume-type", "z", some 0, some 0, 10, 0⟩,
   ⟨"neume-type", "n", some 20, some 0, 10, 10⟩,
   ⟨"syllable", "lu", some 20, some 12, 10, 5⟩]

/-- One neume and two eligible syllables: the first is vertically closer
(vertical gap 0 versus 2), the second horizontally centered. -/
def evTwoSyllables : List EventItem :=
  [⟨"neume-type", "n", some 0, some 0, 10, 10⟩,
   ⟨"syllable", "ia", some 1, some 10, 10, 5⟩,
   ⟨"syllable", "ja", some 0, some 12, 10, 5⟩]

/-- Like `evTwoSyllables` but the vertically closer syllable is very wide
and far off-center, so its score 2·verticalDist + horizontalDist loses. -/
def evWideSyllable : List EventItem :=
  [⟨"neume-type", "n", some 0, some 0, 10, 10⟩,
   ⟨"syllable", "ia", some 5, some 10, 100, 5⟩,
   ⟨"syllable", "ja", some 0, some 12, 10, 5⟩]

example :
    findConnections [⟨"neume-type", "n", some 0, some 0, 10, 10⟩,
      ⟨"syllable", "a", some 0, some 15, 10, 5⟩] =
      [⟨0, 1, 5, 10, 5, 15⟩] := by with_unfolding_all decide

example : findConnections [] = [] := by with_unfolding_all decide

/-! ### Characterisation of the inner selection loop -/

/-- Running the loop from accumulator `best` returns either `best` itself
(then every eligible candidate scored no better), or a candidate from the
list: the first one attaining the minimum score among the eligible
candidates, strictly better than `best` and than every earlier eligible
candidate, and no worse than every later one. -/
theorem pickBestAux_spec (n : AnnotBounds) (l : List AnnotBounds) :
    ∀ (best : Option AnnotBounds) (s : AnnotBounds),
      pickBestAux n best l = some s →
      (best = some s ∧ ∀ s' ∈ l, eligible n s' → distance n s ≤ distance n s') ∨
      (∃ pre post, l = pre ++ s :: post ∧ eligible n s ∧
        (∀ b, best = some b → distance n s < distance n b) ∧
        (∀ s' ∈ pre, eligible n s' → distance n s < distance n s') ∧
        (∀ s' ∈ post, eligible n s' → distance n s ≤ distance n s')) := by
  induction l with
  | nil =>
    intro best s h
    simp only [pickBestAux] at h
    exact Or.inl ⟨h, by intro s' hs'; exact absurd hs' (List.not_mem_nil s')⟩
  | cons a rest ih =>
    intro best s h
    cases best with
    | none =>
      by_cases ha : eligible n a
      · rw [pickBestAux, if_pos ha] at h
        rcases ih (some a) s h with ⟨heq, hmin⟩ | ⟨pre, post, hl, hel, hb, hpre, hpost⟩
        · injection heq with heq
          subst heq
          refine Or.inr ⟨[], rest, rfl, ha, ?_, ?_, hmin⟩
          · intro b hb; exact Option.noConfusion hb
          · intro s' hs'; exact absurd hs' (List.not_mem_nil s')
        · refine Or.inr ⟨a :: pre, post, by rw [hl, List.cons_append], hel, ?_, ?_, hpost⟩
          · intro b hb'; exact Option.noConfusion hb'
          · intro s' hs'
            rcases List.mem_cons.mp hs' with h1 | h2
            · intro _; rw [h1]; exact hb a rfl
            · exact hpre s' h2
      · rw [pickBestAux, if_neg ha] at h
        rcases ih none s h with ⟨heq, _⟩ | ⟨pre, post, hl, hel, hb, hpre, hpost⟩
        · exact Option.noConfusion heq
        · refine Or.inr ⟨a :: pre, post, by rw [hl, List.cons_append], hel, hb, ?_, hpost⟩
          intro s' hs'
          rcases List.mem_cons.mp hs' with h1 | h2
          · intro he; rw [h1] at he; exact absurd he ha
          · exact hpre s' h2
    | some b =>
      by_cases hcond : eligible n a ∧ distance n a < distance n b
      · rw [pickBestAux, if_pos hcond] at h
        rcases ih (some a) s h with ⟨heq, hmin⟩ | ⟨pre, post, hl, hel, hb', hpre, hpost⟩
        · injection heq with heq
          subst heq
          refine Or.inr ⟨[], rest, rfl, hcond.1, ?_, ?_, hmin⟩
          · intro b' hb'
            injection hb' with hb'
            rw [← hb']
            exact hcond.2
          · intro s' hs'; exact absurd hs' (List.not_mem_nil s')
        · refine Or.inr ⟨a :: pre, post, by rw [hl, List.cons_append], hel, ?_, ?_, hpost⟩
          · intro b' hbeq
            injection hbeq with hbeq
            rw [← hbeq]
            exact lt_trans (hb' a rfl) hcond.2
          · intro s' hs'
            rcases List.mem_cons.mp hs' with h1 | h2
            · intro _; rw [h1]; exact hb' a rfl
            · exact hpre s' h2
      · rw [pickBestAux, if_neg hcond] at h
        rcases ih (some b) s h with ⟨hseq, hmin⟩ | ⟨pre, post, hl, hel, hb', hpre, hpost⟩
        · injection hseq with hseq
          subst hseq
          refine Or.inl ⟨rfl, ?_⟩
          intro s' hs'
          rcases List.mem_cons.mp hs' with h1 | h2
          · intro he
            rw [h1] at he ⊢
            exact not_lt.mp fun hlt => hcond ⟨he, hlt⟩
          · exact hmin s' h2
        · refine Or.inr ⟨a :: pre, post, by rw [hl, List.cons_append], hel, hb', ?_, hpost⟩
          intro s' hs'
          rcases List.mem_cons.mp hs' with h1 | h2
          · intro he
            rw [h1] at he ⊢
            exact lt_of_lt_of_le (hb' b rfl) (not_lt.mp fun hlt => hcond ⟨he, hlt⟩)
          · exact hpre s' h2

/-- The selected syllable splits the candidate list: it is eligible,
strictly better than every eligible syllable before it, and no worse than
every eligible syllable after it. -/
theorem pickBest_spec {n : AnnotBounds} {syllables : List AnnotBounds}
    {s : AnnotBounds} (h : pickBest n syllables = some s) :
    ∃ pre post, syllables = pre ++ s :: post ∧ eligible n s ∧
      (∀ s' ∈ pre, eligible n s' → distance n s < distance n s') ∧
      (∀ s' ∈ post, eligible n s' → distance n s ≤ distance n s') := by
  rcases pickBestAux_spec n syllables none s h with ⟨heq, _⟩ | ⟨pre, post, hl, hel, _, hpre, hpost⟩
  · exact Option.noConfusion heq
  · exact ⟨pre, post, hl, hel, hpre, hpost⟩

theorem pickBest_mem {n : AnnotBounds} {syllables : List AnnotBounds}
    {s : AnnotBounds} (h : pickBest n syllables = some s) : s ∈ syllables := by
  rcases pickBest_spec h with ⟨pre, post, hl, _, _, _⟩
  rw [hl]
  exact List.mem_append_right pre (List.mem_cons_self s post)

theorem pickBest_eligible {n : AnnotBounds} {syllables : List AnnotBounds}
    {s : AnnotBounds} (h : pickBest n syllables = some s) : eligible n s :=
  (pickBest_spec h).choose_spec.choose_spec.2.1

theorem pickBest_min {n : AnnotBounds} {syllables : List AnnotBounds}
    {s : AnnotBounds} (h : pickBest n syllables = some s) :
    ∀ s' ∈ syllables, eligible n s' → distance n s ≤ distance n s' := by
  rcases pickBest_spec h with ⟨pre, post, hl, _, hpre, hpost⟩
  intro s' hs' he
  rw [hl] at hs'
  rcases List.mem_append.mp hs' with h1 | h2
  · exact le_of_lt (hpre s' h1 he)
  · rcases List.mem_cons.mp h2 with h3 | h4
    · rw [h3]
    · exact hpost s' h4 he

/-- If no syllable of the list is eligible for `n`, the loop selects
nothing. -/
theorem pickBest_eq_none {n : AnnotBounds} {syllables : List AnnotBounds}
    (h : ∀ s ∈ syllables, ¬ eligible n s) : pickBest n syllables = none := by
  cases hp : pickBest n syllables with
  | none => rfl
  | some s => exact absurd (pickBest_eligible hp) (h s (pickBest_mem hp))

/-! ### The partition of the input into indexed candidates -/

theorem toBounds_index {i : ℕ} {e : EventItem} {b : AnnotBounds}
    (h : toBounds i e = some b) : b.index = i := by
  unfold toBounds at h
  cases hx : e.x with
  | none => rw [hx] at h; exact Option.noConfusion h
  | some xv =>
    cases hy : e.y with
    | none => rw [hx, hy] at h; exact Option.noConfusion h
    | some yv =>
      rw [hx, hy] at h
      injection h with h
      rw [← h]

theorem toBounds_numeric {i : ℕ} {e : EventItem} {b : AnnotBounds}
    (h : toBounds i e = some b) : e.x = some b.x ∧ e.y = some b.y := by
  unfold toBounds at h
  cases hx : e.x with
  | none => rw [hx] at h; exact Option.noConfusion h
  | some xv =>
    cases hy : e.y with
    | none => rw [hx, hy] at h; exact Option.noConfusion h
    | some yv =>
      rw [hx, hy] at h
      injection h with h
      rw [← h]
      exact ⟨rfl, rfl⟩

theorem mem_pickFrom {keep : EventItem → Bool} :
    ∀ {l : List EventItem} {i : ℕ} {b : AnnotBounds}, b ∈ pickFrom keep i l →
      ∃ j, ∃ hj : j < l.length, b.index = i + j ∧
        toBounds b.index (l.get ⟨j, hj⟩) = some b ∧ keep (l.get ⟨j, hj⟩) = true := by
  intro l
  induction l with
  | nil => intro i b hb; simp [pickFrom] at hb
  | cons e rest ih =>
    intro i b hb
    rw [pickFrom] at hb
    rcases List.mem_append.mp hb with h1 | h2
    · by_cases hk : keep e
      · rw [if_pos hk] at h1
        have he : toBounds i e = some b := by
          cases ht : toBounds i e with
          | none => rw [ht] at h1; exact absurd h1 (List.not_mem_nil b)
          | some b' =>
            rw [ht] at h1
            rcases List.mem_cons.mp h1 with h3 | h4
            · rw [h3]
            · exact absurd h4 (List.not_mem_nil b)
        refine ⟨0, Nat.succ_pos rest.length, ?_, ?_, ?_⟩
        · rw [toBounds_index he]; omega
        · rw [toBounds_index he]; exact he
        · exact hk
      · rw [if_neg hk] at h1
        exact absurd h1 (List.not_mem_nil b)
    · rcases ih h2 with ⟨j, hj, hidx, htb, hkeep⟩
      refine ⟨j + 1, Nat.succ_lt_succ hj, ?_, htb, hkeep⟩
      rw [hidx]
      omega

theorem pickFrom_index_ge {keep : EventItem → Bool} :
    ∀ {l : List EventItem} {i : ℕ} {b : AnnotBounds}, b ∈ pickFrom keep i l → i ≤ b.index := by
  intro l i b hb
  rcases mem_pickFrom hb with ⟨j, _, hidx, _, _⟩
  omega

theorem pickFrom_pairwise (keep : EventItem → Bool) :
    ∀ (l : List EventItem) (i : ℕ),
      (pickFrom keep i l).Pairwise (fun a b => a.index < b.index) := by
  intro l
  induction l with
  | nil => intro i; simp [pickFrom]
  | cons e rest ih =>
    intro i
    rw [pickFrom]
    rw [List.pairwise_append]
    refine ⟨?_, ih (i + 1), ?_⟩
    · by_cases hk : keep e
      · rw [if_pos hk]
        cases toBounds i e with
        | none => simp
        | some b => simp
      · rw [if_neg hk]; simp
    · intro a ha b hb
      have hbge : i + 1 ≤ b.index := pickFrom_index_ge hb
      have haeq : a.index = i := by
        by_cases hk : keep e
        · rw [if_pos hk] at ha
          cases ht : toBounds i e with
          | none => rw [ht] at ha; exact absurd ha (List.not_mem_nil a)
          | some b' =>
            rw [ht] at ha
            rcases List.mem_cons.mp ha with h3 | h4
            · rw [h3]; exact toBounds_index ht
            · exact absurd h4 (List.not_mem_nil a)
        · rw [if_neg hk] at ha
          exact absurd ha (List.not_mem_nil a)
      omega

/-- Two members of the candidate list with the same stored index are the
same record. -/
theorem pairwise_index_inj {l : List AnnotBounds}
    (h : l.Pairwise (fun a b => a.index < b.index)) :
    ∀ a ∈ l, ∀ b ∈ l, a.index = b.index → a = b := by
  induction h with
  | nil => intro a ha; exact absurd ha (List.not_mem_nil a)
  | cons hrel hpair ih =>
    intro a ha b hb heq
    rcases List.mem_cons.mp ha with h1 | h2
    · rcases List.mem_cons.mp hb with h3 | h4
      · rw [h1, h3]
      · rw [h1] at heq
        exact absurd heq (Nat.ne_of_lt (hrel b h4))
    · rcases List.mem_cons.mp hb with h3 | h4
      · rw [h3] at heq
        exact absurd heq.symm (Nat.ne_of_lt (hrel a h2))
      · exact ih a h2 b h4 heq

theorem neumesOf_pairwise (events : List EventItem) :
    (neumesOf events).Pairwise (fun a b => a.index < b.index) :=
  pickFrom_pairwise _ events 0

/-! ### Membership in the output -/

theorem mem_findConnections {events : List EventItem} {c : Connection} :
    c ∈ findConnections events ↔
      ∃ n, n ∈ neumesOf events ∧ ∃ s, pickBest n (syllablesOf events) = some s ∧
        c = mkConnection n s := by
  unfold findConnections
  rw [List.mem_filterMap]
  constructor
  · rintro ⟨n, hn, hmap⟩
    rcases Option.map_eq_some'.mp hmap with ⟨s, hs, hc⟩
    exact ⟨n, hn, s, hs, hc.symm⟩
  · rintro ⟨n, hn, s, hs, hc⟩
    exact ⟨n, hn, by rw [hs, Option.map_some', hc]⟩

/-! ### Bridging the code's score to the spec's formula -/

theorem mathAbs_eq_abs (q : ℚ) : mathAbs q = |q| := by
  unfold mathAbs
  by_cases h : q < 0
  · rw [if_pos h, abs_of_neg h]
  · rw [if_neg h, abs_of_nonneg (not_lt.mp h)]

theorem distance_eq_spec (n s : AnnotBounds) :
    distance n s = 2 * verticalDist n s + |neumeCenterX n - syllableCenterX s| := by
  unfold distance horizontalDist
  rw [mathAbs_eq_abs, mul_comm]

/-! ### Order and uniqueness of the emitted connections -/

theorem map_mkConnection_neumeId {n : AnnotBounds} {o : Option AnnotBounds}
    {c : Connection} (h : o.map (mkConnection n) = some c) : c.neumeId = n.index := by
  rcases Option.map_eq_some'.mp h with ⟨s, _, hc⟩
  rw [← hc]
  exact rfl

theorem filterMap_pairwise_index {g : AnnotBounds → Option Connection}
    (hg : ∀ a c, g a = some c → c.neumeId = a.index) :
    ∀ {l : List AnnotBounds}, l.Pairwise (fun a b => a.index < b.index) →
      (l.filterMap g).Pairwise (fun c₁ c₂ => c₁.neumeId < c₂.neumeId) := by
  intro l h
  induction h with
  | nil => simp
  | cons hrel hpair ih =>
    rename_i a l'
    rw [List.filterMap_cons]
    cases hga : g a with
    | none => exact ih
    | some c =>
      refine List.Pairwise.cons ?_ ih
      intro c' hc'
      rcases List.mem_filterMap.mp hc' with ⟨a', ha', hga'⟩
      rw [hg a c hga, hg a' c' hga']
      exact hrel a' ha'

/-! ### The claims -/

/-- Claim C1: for every input sequence and every neume that receives a
connection, the chosen syllable minimises the score
`2 × verticalDist + |Ncx − Scx|` over all eligible syllables, and ties
resolve to the eligible syllable encountered first in the candidate set:
every eligible syllable occurring before the chosen one scores strictly
worse. -/
theorem C1_min_score_first_wins (events : List EventItem) (c : Connection)
    (hc : c ∈ findConnections events) :
    ∃ n s pre post,
      n ∈ neumesOf events ∧ c = mkConnection n s ∧
      syllablesOf events = pre ++ s :: post ∧ eligible n s ∧
      (∀ s' ∈ syllablesOf events, eligible n s' →
        2 * verticalDist n s + |neumeCenterX n - syllableCenterX s| ≤
          2 * verticalDist n s' + |neumeCenterX n - syllableCenterX s'|) ∧
      (∀ s' ∈ pre, eligible n s' →
        2 * verticalDist n s + |neumeCenterX n - syllableCenterX s| <
          2 * verticalDist n s' + |neumeCenterX n - syllableCenterX s'|) := by
  rcases mem_findConnections.mp hc with ⟨n, hn, s, hs, hc'⟩
  rcases pickBest_spec hs with ⟨pre, post, hl, hel, hpre, _⟩
  refine ⟨n, s, pre, post, hn, hc', hl, hel, ?_, ?_⟩
  · intro s' h1 h2
    rw [← distance_eq_spec, ← distance_eq_spec]
    exact pickBest_min hs s' h1 h2
  · intro s' h1 h2
    rw [← distance_eq_spec, ← distance_eq_spec]
    exact hpre s' h1 h2

/-- Claim C2: the output never contains two connections with the same neume
reference, and the connections are ordered like their neumes in the input
(the neume reference is the input position, and it increases strictly along
the output). -/
theorem C2_one_per_neume_in_input_order (events : List EventItem) :
    ((findConnections events).Pairwise fun c₁ c₂ => c₁.neumeId ≠ c₂.neumeId) ∧
    ((findConnections events).Pairwise fun c₁ c₂ => c₁.neumeId < c₂.neumeId) := by
  have hlt : (findConnections events).Pairwise fun c₁ c₂ => c₁.neumeId < c₂.neumeId := by
    unfold findConnections
    exact filterMap_pairwise_index (fun a c h => map_mkConnection_neumeId h)
      (neumesOf_pairwise events)
  exact ⟨hlt.imp fun h => Nat.ne_of_lt h, hlt⟩

/-- Claim C3: every emitted connection satisfies the gap bound
`0 ≤ syllableTop − neumeBottom < 5 × neumeHeight` (the connection's anchor
points are exactly the syllable top and the neume bottom). -/
theorem C3_gap_bound (events : List EventItem) (c : Connection)
    (hc : c ∈ findConnections events) :
    ∃ n, n ∈ neumesOf events ∧ c.neumeId = n.index ∧
      0 ≤ c.syllableY - c.neumeY ∧ c.syllableY - c.neumeY < 5 * n.height := by
  rcases mem_findConnections.mp hc with ⟨n, hn, s, hs, hc'⟩
  have hel := pickBest_eligible hs
  rcases hel.2.2 with ⟨hge, hlt⟩
  refine ⟨n, hn, by rw [hc']; exact rfl, ?_, ?_⟩
  · rw [hc']
    show (0 : ℚ) ≤ s.y - (n.y + n.height)
    exact hge
  · rw [hc']
    show s.y - (n.y + n.height) < 5 * n.height
    calc s.y - (n.y + n.height) < n.height * 5 := hlt
    _ = 5 * n.height := mul_comm _ _

/-- Claim C4: the chosen syllable's top edge is never above the neume's top
edge: every emitted connection has `n.y ≤ syllableTop`. -/
theorem C4_vertical_ordering (events : List EventItem) (c : Connection)
    (hc : c ∈ findConnections events) :
    ∃ n, n ∈ neumesOf events ∧ c.neumeId = n.index ∧ n.y ≤ c.syllableY := by
  rcases mem_findConnections.mp hc with ⟨n, hn, s, hs, hc'⟩
  have hel := pickBest_eligible hs
  refine ⟨n, hn, by rw [hc']; exact rfl, ?_⟩
  rw [hc']
  exact hel.1

/-- Claim C5: the neume's horizontal centre lies in the expanded band
`[Sleft − S.width, Sright + S.width]` of the chosen syllable, and a neume
for which no syllable lies in this band receives no connection. -/
theorem C5_horizontal_band (events : List EventItem) (c : Connection)
    (hc : c ∈ findConnections events) :
    (∃ n s, n ∈ neumesOf events ∧ s ∈ syllablesOf events ∧ c = mkConnection n s ∧
      s.x - s.width ≤ neumeCenterX n ∧ neumeCenterX n ≤ (s.x + s.width) + s.width) ∧
    (∀ n ∈ neumesOf events, (∀ s ∈ syllablesOf events, ¬ isHorizontallyValid n s) →
      c.neumeId ≠ n.index) := by
  rcases mem_findConnections.mp hc with ⟨n, hn, s, hs, hc'⟩
  have hel := pickBest_eligible hs
  constructor
  · exact ⟨n, s, hn, pickBest_mem hs, hc', hel.2.1.1, hel.2.1.2⟩
  · intro n' hn' hband heq
    have hidx : n.index = n'.index := by rw [hc'] at heq; exact heq
    have hne : n = n' := pairwise_index_inj (neumesOf_pairwise events) n hn n' hn' hidx
    rw [← hne] at hband
    exact hband s (pickBest_mem hs) hel.2.1

/-- Claim C6: a record whose `x` or `y` is missing is excluded from
inference entirely: it is never the neume nor the syllable reference of an
emitted connection (and `findConnections` is a total function, so no error
is possible). -/
theorem C6_malformed_excluded (events : List EventItem) (i : ℕ) (c : Connection)
    (hi : i < events.length)
    (hbad : (events.get ⟨i, hi⟩).x = none ∨ (events.get ⟨i, hi⟩).y = none)
    (hc : c ∈ findConnections events) :
    c.neumeId ≠ i ∧ c.syllableId ≠ i := by
  rcases mem_findConnections.mp hc with ⟨n, hn, s, hs, hc'⟩
  constructor
  · intro heq
    rcases mem_pickFrom hn with ⟨j, hj, hidx, htb, _⟩
    have heq' : n.index = i := by rw [hc'] at heq; exact heq
    have hji : (⟨j, hj⟩ : Fin events.length) = ⟨i, hi⟩ := by
      apply Fin.ext
      show j = i
      omega
    rw [hji] at htb
    rcases toBounds_numeric htb with ⟨hx, hy⟩
    rcases hbad with hb | hb
    · rw [hb] at hx; exact Option.noConfusion hx
    · rw [hb] at hy; exact Option.noConfusion hy
  · intro heq
    rcases mem_pickFrom (pickBest_mem hs) with ⟨j, hj, hidx, htb, _⟩
    have heq' : s.index = i := by rw [hc'] at heq; exact heq
    have hji : (⟨j, hj⟩ : Fin events.length) = ⟨i, hi⟩ := by
      apply Fin.ext
      show j = i
      omega
    rw [hji] at htb
    rcases toBounds_numeric htb with ⟨hx, hy⟩
    rcases hbad with hb | hb
    · rw [hb] at hx; exact Option.noConfusion hx
    · rw [hb] at hy; exact Option.noConfusion hy

/-- Claim C7: the engine is deterministic and pure — it is a function of its
input, so equal inputs give equal outputs (and a Lean function cannot mutate
its argument). -/
theorem C7_deterministic (events₁ events₂ : List EventItem)
    (h : events₁ = events₂) :
    findConnections events₁ = findConnections events₂ := by rw [h]

/-- Claim C8 as stated is false: with one neume and two eligible syllables,
where the first is strictly closer vertically and the second strictly more
horizontally centered, the engine picks the second (index 2), because its
combined score 2·verticalDist + horizontalDist (4 versus 50) is smaller. -/
theorem C8_counterexample :
    eligible ⟨0, 0, 0, 10, 10⟩ ⟨1, 5, 10, 100, 5⟩ ∧
    eligible ⟨0, 0, 0, 10, 10⟩ ⟨2, 0, 12, 10, 5⟩ ∧
    verticalDist ⟨0, 0, 0, 10, 10⟩ ⟨1, 5, 10, 100, 5⟩ <
      verticalDist ⟨0, 0, 0, 10, 10⟩ ⟨2, 0, 12, 10, 5⟩ ∧
    horizontalDist ⟨0, 0, 0, 10, 10⟩ ⟨2, 0, 12, 10, 5⟩ <
      horizontalDist ⟨0, 0, 0, 10, 10⟩ ⟨1, 5, 10, 100, 5⟩ ∧
    neumesOf evWideSyllable = [⟨0, 0, 0, 10, 10⟩] ∧
    syllablesOf evWideSyllable = [⟨1, 5, 10, 100, 5⟩, ⟨2, 0, 12, 10, 5⟩] ∧
    findConnections evWideSyllable = [⟨0, 2, 5, 10, 5, 12⟩] := by
  with_unfolding_all decide

/-- Claim C8, amended: with one neume and two eligible syllables, the engine
connects the neume to the syllable whose combined score
`2 × verticalDist + horizontalDist` is strictly smaller; the vertically
closer syllable therefore wins exactly when its score advantage holds
(for instance when the other's horizontal advantage is less than twice the
vertical gap difference), not unconditionally. -/
theorem C8_amended_weighted_score (events : List EventItem)
    (n sA sB : AnnotBounds)
    (hn : neumesOf events = [n])
    (hs : syllablesOf events = [sA, sB] ∨ syllablesOf events = [sB, sA])
    (hA : eligible n sA) (hB : eligible n sB)
    (hlt : distance n sA < distance n sB) :
    findConnections events = [mkConnection n sA] := by
  have hpb : pickBest n (syllablesOf events) = some sA := by
    rcases hs with hs | hs <;> rw [hs]
    · show pickBestAux n none [sA, sB] = some sA
      rw [pickBestAux, if_pos hA,
        pickBestAux, if_neg (fun hcon => absurd hcon.2 (not_lt.mpr (le_of_lt hlt))),
        pickBestAux]
    · show pickBestAux n none [sB, sA] = some sA
      rw [pickBestAux, if_pos hB,
        pickBestAux, if_pos ⟨hA, hlt⟩,
        pickBestAux]
  unfold findConnections
  rw [hn]
  simp only [List.filterMap_cons, List.filterMap_nil, hpb, Option.map_some']

/-- Claim C9: a neume of height 0 never receives a connection, since the gap
test `0 ≤ verticalDist < 5 × 0` is unsatisfiable. -/
theorem C9_zero_height_no_connection (events : List EventItem)
    (n : AnnotBounds) (c : Connection)
    (hn : n ∈ neumesOf events) (hh : n.height = 0)
    (hc : c ∈ findConnections events) : c.neumeId ≠ n.index := by
  intro heq
  rcases mem_findConnections.mp hc with ⟨n', hn', s, hs, hc'⟩
  have hidx : n'.index = n.index := by rw [hc'] at heq; exact heq
  have hnn : n' = n := pairwise_index_inj (neumesOf_pairwise events) n' hn' n hn hidx
  rcases (pickBest_eligible hs).2.2 with ⟨hge, hlt⟩
  rw [hnn, hh] at hlt
  have hneg : verticalDist n s < 0 := by simpa using hlt
  rw [hnn] at hge
  exact absurd hge (not_le.mpr hneg)

theorem toBounds_stripValue (i : ℕ) (e : EventItem) :
    toBounds i (stripValue e) = toBounds i e := rfl

theorem pickFrom_map_stripValue (keep : EventItem → Bool)
    (hkeep : ∀ e, keep (stripValue e) = keep e) :
    ∀ (l : List EventItem) (i : ℕ),
      pickFrom keep i (l.map stripValue) = pickFrom keep i l := by
  intro l
  induction l with
  | nil => intro i; rfl
  | cons e rest ih =>
    intro i
    simp only [List.map_cons]
    rw [pickFrom, pickFrom, ih (i + 1), hkeep e, toBounds_stripValue]

/-- Claim C10: the output does not depend on the records' label text — two
inputs that agree on everything except the `value` fields produce identical
connection lists. -/
theorem C10_label_independent (events₁ events₂ : List EventItem)
    (h : events₁.map stripValue = events₂.map stripValue) :
    findConnections events₁ = findConnections events₂ := by
  have key : ∀ events : List EventItem,
      findConnections (events.map stripValue) = findConnections events := by
    intro events
    unfold findConnections neumesOf syllablesOf
    rw [pickFrom_map_stripValue (fun e => e.type == "neume-type")
        (fun e => rfl) events 0,
      pickFrom_map_stripValue (fun e => !(e.type == "neume-type"))
        (fun e => rfl) events 0]
  rw [← key events₁, ← key events₂, h]

/-! ### Concrete witnesses -/

theorem C1_witness :
    (⟨0, 1, 5, 10, 5, 15⟩ : Connection) ∈ findConnections evScenarioA ∧
    (∃ n s pre post,
      n ∈ neumesOf evScenarioA ∧
      (⟨0, 1, 5, 10, 5, 15⟩ : Connection) = mkConnection n s ∧
      syllablesOf evScenarioA = pre ++ s :: post ∧ eligible n s ∧
      (∀ s' ∈ syllablesOf evScenarioA, eligible n s' →
        2 * verticalDist n s + |neumeCenterX n - syllableCenterX s| ≤
          2 * verticalDist n s' + |neumeCenterX n - syllableCenterX s'|) ∧
      (∀ s' ∈ pre, eligible n s' →
        2 * verticalDist n s + |neumeCenterX n - syllableCenterX s| <
          2 * verticalDist n s' + |neumeCenterX n - syllableCenterX s'|)) :=
  ⟨by with_unfolding_all decide,
    C1_min_score_first_wins evScenarioA ⟨0, 1, 5, 10, 5, 15⟩
      (by with_unfolding_all decide)⟩

theorem C3_witness :
    (⟨0, 1, 5, 10, 5, 15⟩ : Connection) ∈ findConnections evScenarioA ∧
    (∃ n, n ∈ neumesOf evScenarioA ∧
      (⟨0, 1, 5, 10, 5, 15⟩ : Connection).neumeId = n.index ∧
      0 ≤ (⟨0, 1, 5, 10, 5, 15⟩ : Connection).syllableY -
        (⟨0, 1, 5, 10, 5, 15⟩ : Connection).neumeY ∧
      (⟨0, 1, 5, 10, 5, 15⟩ : Connection).syllableY -
        (⟨0, 1, 5, 10, 5, 15⟩ : Connection).neumeY < 5 * n.height) :=
  ⟨by with_unfolding_all decide,
    C3_gap_bound evScenarioA ⟨0, 1, 5, 10, 5, 15⟩ (by with_unfolding_all decide)⟩

theorem C4_witness :
    (⟨0, 1, 5, 10, 5, 15⟩ : Connection) ∈ findConnections evScenarioA ∧
    (∃ n, n ∈ neumesOf evScenarioA ∧
      (⟨0, 1, 5, 10, 5, 15⟩ : Connection).neumeId = n.index ∧
      n.y ≤ (⟨0, 1, 5, 10, 5, 15⟩ : Connection).syllableY) :=
  ⟨by with_unfolding_all decide,
    C4_vertical_ordering evScenarioA ⟨0, 1, 5, 10, 5, 15⟩
      (by with_unfolding_all decide)⟩

theorem C5_witness :
    (⟨0, 1, 5, 10, 5, 15⟩ : Connection) ∈ findConnections evScenarioA ∧
    ((∃ n s, n ∈ neumesOf evScenarioA ∧ s ∈ syllablesOf evScenarioA ∧
      (⟨0, 1, 5, 10, 5, 15⟩ : Connection) = mkConnection n s ∧
      s.x - s.width ≤ neumeCenterX n ∧
      neumeCenterX n ≤ (s.x + s.width) + s.width) ∧
    (∀ n ∈ neumesOf evScenarioA,
      (∀ s ∈ syllablesOf evScenarioA, ¬ isHorizontallyValid n s) →
      (⟨0, 1, 5, 10, 5, 15⟩ : Connection).neumeId ≠ n.index)) :=
  ⟨by with_unfolding_all decide,
    C5_horizontal_band evScenarioA ⟨0, 1, 5, 10, 5, 15⟩
      (by with_unfolding_all decide)⟩

theorem C6_witness :
    0 < evMalformed.length ∧
    (evMalformed.get ⟨0, Nat.succ_pos 2⟩).x = none ∧
    (⟨1, 2, 25, 10, 25, 12⟩ : Connection) ∈ findConnections evMalformed ∧
    ((⟨1, 2, 25, 10, 25, 12⟩ : Connection).neumeId ≠ 0 ∧
      (⟨1, 2, 25, 10, 25, 12⟩ : Connection).syllableId ≠ 0) :=
  ⟨Nat.succ_pos 2, by with_unfolding_all decide, by with_unfolding_all decide,
    C6_malformed_excluded evMalformed 0 ⟨1, 2, 25, 10, 25, 12⟩ (Nat.succ_pos 2)
      (Or.inl (by with_unfolding_all decide)) (by with_unfolding_all decide)⟩

theorem C7_witness :
    evScenarioA = evScenarioA ∧
    findConnections evScenarioA = findConnections evScenarioA :=
  ⟨rfl, C7_deterministic evScenarioA evScenarioA rfl⟩

theorem C8_amended_witness :
    neumesOf evTwoSyllables = [⟨0, 0, 0, 10, 10⟩] ∧
    syllablesOf evTwoSyllables = [⟨1, 1, 10, 10, 5⟩, ⟨2, 0, 12, 10, 5⟩] ∧
    eligible ⟨0, 0, 0, 10, 10⟩ ⟨1, 1, 10, 10, 5⟩ ∧
    eligible ⟨0, 0, 0, 10, 10⟩ ⟨2, 0, 12, 10, 5⟩ ∧
    distance ⟨0, 0, 0, 10, 10⟩ ⟨1, 1, 10, 10, 5⟩ <
      distance ⟨0, 0, 0, 10, 10⟩ ⟨2, 0, 12, 10, 5⟩ ∧
    findConnections evTwoSyllables =
      [mkConnection ⟨0, 0, 0, 10, 10⟩ ⟨1, 1, 10, 10, 5⟩] :=
  ⟨by with_unfolding_all decide, by with_unfolding_all decide,
    by with_unfolding_all decide, by with_unfolding_all decide,
    by with_unfolding_all decide,
    C8_amended_weighted_score evTwoSyllables ⟨0, 0, 0, 10, 10⟩
      ⟨1, 1, 10, 10, 5⟩ ⟨2, 0, 12, 10, 5⟩
      (by with_unfolding_all decide) (Or.inl (by with_unfolding_all decide))
      (by with_unfolding_all decide) (by with_unfolding_all decide)
      (by with_unfolding_all decide)⟩

theorem C9_witness :
    (⟨0, 0, 0, 10, 0⟩ : AnnotBounds) ∈ neumesOf evZeroHeight ∧
    (⟨0, 0, 0, 10, 0⟩ : AnnotBounds).height = 0 ∧
    (⟨1, 2, 25, 10, 25, 12⟩ : Connection) ∈ findConnections evZeroHeight ∧
    (⟨1, 2, 25, 10, 25, 12⟩ : Connection).neumeId ≠
      (⟨0, 0, 0, 10, 0⟩ : AnnotBounds).index :=
  ⟨by with_unfolding_all decide, rfl, by with_unfolding_all decide,
    C9_zero_height_no_connection evZeroHeight ⟨0, 0, 0, 10, 0⟩
      ⟨1, 2, 25, 10, 25, 12⟩ (by with_unfolding_all decide) rfl
      (by with_unfolding_all decide)⟩

theorem C10_witness :
    List.map stripValue evScenarioA =
      List.map stripValue [⟨"neume-type", "clivis", some 0, some 0, 10, 10⟩,
        ⟨"syllable", "le", some 0, some 15, 10, 5⟩] ∧
    findConnections evScenarioA =
      findConnections [⟨"neume-type", "clivis", some 0, some 0, 10, 10⟩,
        ⟨"syllable", "le", some 0, some 15, 10, 5⟩] :=
  ⟨by with_unfolding_all decide,
    C10_label_independent evScenarioA
      [⟨"neume-type", "clivis", some 0, some 0, 10, 10⟩,
        ⟨"syllable", "le", some 0, some 15, 10, 5⟩]
      (by with_unfolding_all decide)⟩
